import Mathlib

/-!
Verification of the fgcugl 2D drawing layer (src/fgcugl.cpp).

The embedding below models the three algorithmic routines of the library:
the color decoder `setColor`, the circle tessellator `drawCircle`, and the
glyph rasterizer `drawText`.  Machine floats are modelled by exact numbers
(`ℚ` where the code only adds/subtracts/multiplies, `ℝ` where trigonometry
is involved); C++ `unsigned int` arithmetic is modelled on `ℕ` with explicit
`% 2^32`; a fallible operation (float division whose divisor may be zero,
an index into the glyph table that may be out of bounds) is modelled with
`Option`, `none` marking the erroneous execution.
-/

namespace Fgcugl

/-- Embedding of `setColor` (src/fgcugl.cpp, lines 388-394).  The C++ code is
`red = ((color >> 16) & 0xFF) / 255.0; green = ((color >> 8) & 0xFF) / 255.0;
blue = (color & 0xFF) / 255.0; glColor3f(red, green, blue)`.  The argument is
a C++ 32-bit `unsigned int`, hence the `% 4294967296` at the call boundary;
the result is the (red, green, blue) triple handed to the backend. -/
def setColor (color : ℕ) : ℚ × ℚ × ℚ :=
  (((((color % 4294967296) >>> 16) &&& 0xFF : ℕ) : ℚ) / 255,
   ((((color % 4294967296) >>> 8) &&& 0xFF : ℕ) : ℚ) / 255,
   ((((color % 4294967296) &&& 0xFF : ℕ) : ℚ) / 255))

/-- Modelled from the spec: the named constant `White` comes from the header
`fgcugl.h`, which is not part of the sources at hand; the doc comments of the
drawing routines (e.g. src/fgcugl.cpp line 205) state `color - fill color
(default=White)`, and under the 24-bit RGB color model of the library the
white color is the word with all 24 low bits set, `0xFFFFFF`, which decodes
to (1, 1, 1). -/
def White : ℕ := 0xFFFFFF

/-- The constant `GLfloat doublePi = 2.0f * M_PI` of `drawCircle`
(src/fgcugl.cpp, line 279). -/
noncomputable def doublePi : ℝ := 2 * Real.pi

/-- Float division as performed by `i * doublePi / sides` in `drawCircle`:
a zero divisor is the erroneous execution, modelled as `none`. -/
noncomputable def fdiv (a b : ℝ) : Option ℝ :=
  if b = 0 then none else some (a / b)

/-- One iteration of the vertex loop of `drawCircle` (src/fgcugl.cpp, lines
287-291): `circleVerticesX[i] = x + (radius * cos(i * doublePi / sides))`,
`circleVerticesY[i] = y + (radius * sin(i * doublePi / sides))`. -/
noncomputable def rimVertex (x y radius : ℝ) (sides : ℤ) (i : ℕ) : Option (ℝ × ℝ) :=
  (fdiv ((i : ℝ) * doublePi) ((sides : ℤ) : ℝ)).map
    (fun angle => (x + radius * Real.cos angle, y + radius * Real.sin angle))

/-- The vertex loop `for (int i = 1; i < numberOfVertices; i++)` of
`drawCircle`, started at index `i` with `fuel` iterations remaining. -/
noncomputable def circleRimLoop (x y radius : ℝ) (sides : ℤ) : ℕ → ℕ → Option (List (ℝ × ℝ))
  | _, 0 => some []
  | i, fuel + 1 =>
      match rimVertex x y radius sides i, circleRimLoop x y radius sides (i + 1) fuel with
      | some v, some rest => some (v :: rest)
      | _, _ => none

/-- The vertex sequence generated by `drawCircle` (src/fgcugl.cpp, lines
275-299): `numberOfVertices = sides + 2`, vertex 0 is the center `(x, y)`
(lines 284-285), and the loop fills indices `1 .. sides + 1`; it runs
`(sides + 1).toNat` iterations, matching `for (i = 1; i < sides + 2; i++)`
on C++ `int`s. -/
noncomputable def drawCircleVertices (x y radius : ℝ) (sides : ℤ) : Option (List (ℝ × ℝ)) :=
  (circleRimLoop x y radius sides 1 (sides + 1).toNat).map (fun rim => (x, y) :: rim)

/-- The `size × size` block of points drawn for one set glyph bit in
`drawText` (src/fgcugl.cpp, lines 340-347): `for (ys = ypos; ys < ypos +
size; ys++) for (xs = xpos; xs < xpos + size; xs++) drawPoint(xs, ys, 1)`.
The text rasterizer only adds, subtracts and multiplies, so its float
coordinates are modelled exactly in `ℚ`; for an integer `size` the float
loops run `size.toNat` times each (zero times when `size ≤ 0`). -/
def blockPoints (xpos ypos : ℚ) (size : ℤ) : List (ℚ × ℚ) :=
  (List.range size.toNat).flatMap
    (fun (ky : ℕ) =>
      (List.range size.toNat).map (fun (kx : ℕ) => (xpos + (kx : ℚ), ypos + (ky : ℚ))))

/-- The column loop `for (int b = 0; b < 8; b++)` of `drawText`
(src/fgcugl.cpp, lines 336-350): the running `byte` is tested against `0x80`
(line 338), then `byte = byte << 1` (a `GLubyte`, hence the `% 256`) and
`xpos += size`.  The first `ℕ` argument is the running byte, the `ℚ`
argument the running `xpos`, the last argument the remaining columns. -/
def colLoop (ypos : ℚ) (size : ℤ) : ℕ → ℚ → ℕ → List (ℚ × ℚ)
  | _, _, 0 => []
  | byte, xpos, n + 1 =>
      (if byte &&& 0x80 ≠ 0 then blockPoints xpos ypos size else [])
        ++ colLoop ypos size ((byte <<< 1) % 256) (xpos + ((size : ℤ) : ℚ)) n

/-- The points emitted for one character cell of `drawText` (src/fgcugl.cpp,
lines 331-352): `ypos` starts at `y + 8` (line 331) and decreases by `size`
after each of the 8 rows, so row `i` is processed at `ypos = y + 8 - i *
size`; each row restarts at `xpos = x` with the row byte `g i`. -/
def charPoints (x y : ℚ) (size : ℤ) (g : Fin 8 → Fin 256) : List (ℚ × ℚ) :=
  (List.finRange 8).flatMap
    (fun i => colLoop (y + 8 - ((i : ℕ) : ℚ) * ((size : ℤ) : ℚ)) size ((g i : ℕ)) x 8)

/-- Modelled from the spec (§3, §4.3): the compiled-in glyph table
`CHARACTERS` lives in the header `fgcugl.h`, which is not among the sources
at hand; per the spec it is a fixed table of 8-byte row bitmaps "indexed by
ASCII code minus 32 (covering the printable ASCII range starting at
space)", i.e. rows 0..94 for codes 32..126.  The table contents stay
abstract (the parameter `tbl`); this is the access `CHARACTERS[idx]`, with
`none` marking an out-of-bounds read. -/
def charactersLookup (tbl : Fin 95 → Fin 8 → Fin 256) (idx : ℤ) :
    Option (Fin 8 → Fin 256) :=
  if h : 0 ≤ idx ∧ idx < 95 then some (tbl ⟨idx.toNat, by omega⟩) else none

/-- The outer character loop of `drawText` (src/fgcugl.cpp, lines 329-354):
for each character `c` the glyph `CHARACTERS[text[c] - 32]` (line 335) is
rasterized at the cursor `x`, and afterwards `x = xpos` (line 353), the row
loop having left `xpos = x + 8 * size`.  Character codes are `ℤ` (a C++
`char` may be signed) and no range check precedes the table access. -/
def drawTextLoop (tbl : Fin 95 → Fin 8 → Fin 256) (y : ℚ) (size : ℤ) :
    List ℤ → ℚ → Option (List (ℚ × ℚ))
  | [], _ => some []
  | c :: rest, x =>
      match charactersLookup tbl (c - 32),
          drawTextLoop tbl y size rest (x + 8 * ((size : ℤ) : ℚ)) with
      | some g, some more => some (charPoints x y size g ++ more)
      | _, _ => none

/-- A call into the immediate-mode backend made while drawing text: either a
`glColor3f` color change (`setCol`) or the draw of a single point vertex
with a point size (`point`). -/
inductive TextEvent where
  | setCol : ℚ × ℚ × ℚ → TextEvent
  | point : ℚ × ℚ → ℚ → TextEvent

/-- The backend calls of `drawPoint(xs, ys, 1)` (src/fgcugl.cpp, lines
210-226) with its defaulted parameters `color = White`, `smooth = true`
(line 344 passes only three arguments): `drawPoint` re-invokes `setColor`
with the default color (line 220) before issuing the point. -/
def drawPointCalls (p : ℚ × ℚ) : List TextEvent :=
  [TextEvent.setCol (setColor White), TextEvent.point p 1]

/-- The backend call trace of `drawText` (src/fgcugl.cpp, lines 323-355):
`setColor(color)` on entry (line 327), after which every emitted point goes
through `drawPoint(xs, ys, 1)` (line 344). -/
def drawTextTrace (tbl : Fin 95 → Fin 8 → Fin 256) (x y : ℚ) (text : List ℤ)
    (size : ℤ) (color : ℕ) : Option (List TextEvent) :=
  (drawTextLoop tbl y size text x).map
    (fun pts => TextEvent.setCol (setColor color) :: pts.flatMap drawPointCalls)

/-- The backend color register: a `setCol` event overwrites it, a point draw
leaves it unchanged. -/
def applyEvent (s : ℚ × ℚ × ℚ) : TextEvent → ℚ × ℚ × ℚ
  | TextEvent.setCol c => c
  | TextEvent.point _ _ => s

/-- Walks a backend trace and records, for every drawn point, the color in
effect at the moment the point is drawn. -/
def pointColors (s : ℚ × ℚ × ℚ) : List TextEvent → List ((ℚ × ℚ) × (ℚ × ℚ × ℚ))
  | [] => []
  | TextEvent.setCol c :: es => pointColors c es
  | TextEvent.point p _ :: es => (p, s) :: pointColors s es

/-- A call of `drawText` as a state transformer on the backend color
register: the output is the backend call trace (`none` on an out-of-bounds
glyph access) and the second component the final register.  On the
erroneous execution the register holds `setColor color`, since
`setColor(color)` is the first statement of `drawText`. -/
def drawTextRun (tbl : Fin 95 → Fin 8 → Fin 256) (x y : ℚ) (text : List ℤ)
    (size : ℤ) (color : ℕ) (s : ℚ × ℚ × ℚ) :
    Option (List TextEvent) × (ℚ × ℚ × ℚ) :=
  match drawTextTrace tbl x y text size color with
  | some es => (some es, es.foldl applyEvent s)
  | none => (none, setColor color)

/-- A call of `drawCircle` as a state transformer on the backend color
register: the output is the generated vertex sequence and the final
register is `setColor color` (src/fgcugl.cpp line 303 runs
unconditionally). -/
noncomputable def drawCircleRun (x y radius : ℝ) (color : ℕ) (sides : ℤ)
    (_s : ℚ × ℚ × ℚ) : Option (List (ℝ × ℝ)) × (ℚ × ℚ × ℚ) :=
  (drawCircleVertices x y radius sides, setColor color)

/-- A concrete glyph used by the witnesses below: row 0 is the byte `0x80`
(only the leftmost column set), all other rows are zero. -/
def glyph1 : Fin 8 → Fin 256 :=
  fun i => if (i : ℕ) = 0 then ⟨128, by norm_num⟩ else ⟨0, by norm_num⟩

/-- A concrete glyph table used by the witnesses below: every entry is
`glyph1`. -/
def tbl0 : Fin 95 → Fin 8 → Fin 256 := fun _ => glyph1

end Fgcugl

namespace Fgcugl

/-- `x &&& 0xFF` is `x % 256` on natural numbers. -/
theorem and255_eq_mod (x : ℕ) : x &&& 255 = x % 256 := by
  have h := Nat.and_pow_two_sub_one_eq_mod x 8
  norm_num at h
  exact h

/-- Claim C5: `setColor` decodes a packed color by taking red = bits 16-23,
green = bits 8-15, blue = bits 0-7, each divided by 255 to land in [0, 1];
in particular input `0xFF8040` decodes to (1.0, 0.502, 0.251) within 1/255
tolerance, `0x000000` to (0, 0, 0), and `0xFFFFFF` to (1, 1, 1). -/
theorem setColor_channel_extraction :
    (∀ R G B : ℕ, R < 256 → G < 256 → B < 256 →
      setColor (R * 65536 + G * 256 + B) = ((R : ℚ) / 255, (G : ℚ) / 255, (B : ℚ) / 255)) ∧
    (setColor 0xFF8040).1 = 1 ∧
    |(setColor 0xFF8040).2.1 - 0.502| ≤ 1 / 255 ∧
    |(setColor 0xFF8040).2.2 - 0.251| ≤ 1 / 255 ∧
    setColor 0x000000 = (0, 0, 0) ∧
    setColor 0xFFFFFF = (1, 1, 1) := by
  refine ⟨?_, ?_, ?_, ?_, ?_, ?_⟩
  · intro R G B hR hG hB
    simp only [setColor, Nat.shiftRight_eq_div_pow, and255_eq_mod, Prod.mk.injEq]
    norm_num
    have h1 : (R * 65536 + G * 256 + B) % 4294967296 = R * 65536 + G * 256 + B := by omega
    have hr : (R * 65536 + G * 256 + B) / 65536 % 256 = R := by omega
    have hg : (R * 65536 + G * 256 + B) / 256 % 256 = G := by omega
    have hb : (R * 65536 + G * 256 + B) % 256 = B := by omega
    rw [h1, hr, hg, hb]
    exact ⟨rfl, rfl, rfl⟩
  · norm_num [setColor, Nat.shiftRight_eq_div_pow, and255_eq_mod]
  · rw [abs_le]
    constructor <;> norm_num [setColor, Nat.shiftRight_eq_div_pow, and255_eq_mod]
  · rw [abs_le]
    constructor <;> norm_num [setColor, Nat.shiftRight_eq_div_pow, and255_eq_mod]
  · norm_num [setColor, Nat.shiftRight_eq_div_pow, and255_eq_mod]
  · norm_num [setColor, Nat.shiftRight_eq_div_pow, and255_eq_mod]

/-- Witness for claim C5 at the concrete channels R = 255, G = 128, B = 64. -/
theorem setColor_channel_extraction_witness :
    (255 : ℕ) < 256 ∧ (128 : ℕ) < 256 ∧ (64 : ℕ) < 256 ∧
    setColor (255 * 65536 + 128 * 256 + 64) = ((255 : ℚ) / 255, (128 : ℚ) / 255, (64 : ℚ) / 255) :=
  ⟨by norm_num, by norm_num, by norm_num,
    setColor_channel_extraction.1 255 128 64 (by norm_num) (by norm_num) (by norm_num)⟩

/-- Claim C6: for every 32-bit unsigned input `c`, `setColor` produces the same
three channel values as `setColor` applied to `c % 2^24`: bits above bit 23
never influence the decoded color, and no input is an error (the decoder is a
total function). -/
theorem setColor_ignores_bits_above_23 (c : ℕ) (hc : c < 4294967296) :
    setColor c = setColor (c % 16777216) := by
  simp only [setColor, Nat.shiftRight_eq_div_pow, and255_eq_mod, Prod.mk.injEq]
  norm_num
  refine ⟨?_, ?_⟩
  · have h1 : c % 4294967296 / 65536 % 256 = c % 16777216 % 4294967296 / 65536 % 256 := by
      omega
    rw [h1]
  · have h2 : c % 4294967296 / 256 % 256 = c % 16777216 % 4294967296 / 256 % 256 := by
      omega
    rw [h2]

/-- Witness for claim C6 at the concrete 32-bit input `0xAB123456`. -/
theorem setColor_ignores_bits_above_23_witness :
    (0xAB123456 : ℕ) < 4294967296 ∧ setColor 0xAB123456 = setColor (0xAB123456 % 16777216) :=
  ⟨by norm_num, setColor_ignores_bits_above_23 0xAB123456 (by norm_num)⟩

/-- When the divisor is nonzero, `fdiv` is ordinary division. -/
theorem fdiv_of_ne_zero (a b : ℝ) (hb : b ≠ 0) : fdiv a b = some (a / b) := by
  simp [fdiv, hb]

/-- Closed form of the `drawCircle` vertex loop when `sides ≠ 0`: starting at
index `i` with `fuel` iterations left it succeeds and produces the vertices
for indices `i, i+1, ..., i+fuel-1`. -/
theorem circleRimLoop_eq (x y radius : ℝ) (sides : ℤ) (hs : sides ≠ 0) (fuel : ℕ) :
    ∀ i : ℕ, circleRimLoop x y radius sides i fuel =
      some ((List.range' i fuel).map (fun (j : ℕ) =>
        (x + radius * Real.cos ((j : ℝ) * doublePi / ((sides : ℤ) : ℝ)),
         y + radius * Real.sin ((j : ℝ) * doublePi / ((sides : ℤ) : ℝ))))) := by
  have hb : ((sides : ℤ) : ℝ) ≠ 0 := Int.cast_ne_zero.mpr hs
  induction fuel with
  | zero => intro i; simp [circleRimLoop]
  | succ n ih =>
      intro i
      rw [circleRimLoop, rimVertex, fdiv_of_ne_zero _ _ hb, Option.map_some', ih (i + 1)]
      rw [List.range'_succ, List.map_cons]

/-- Claim C1: for every center `(x, y)`, radius `r > 0` and side count
`n ≥ 3`, `drawCircle` generates exactly `n + 2` vertices, vertex 0 equals the
center, and every rim vertex (indices 1 through `n + 1`) lies at Euclidean
distance `r` from the center. -/
theorem drawCircle_fan_count_and_radius (x y radius : ℝ) (sides : ℤ)
    (hr : 0 < radius) (hn : 3 ≤ sides) :
    ∃ vs : List (ℝ × ℝ),
      drawCircleVertices x y radius sides = some vs ∧
      (vs.length : ℤ) = sides + 2 ∧
      vs.head? = some (x, y) ∧
      ∀ v ∈ vs.tail, Real.sqrt ((v.1 - x) ^ 2 + (v.2 - y) ^ 2) = radius := by
  have hs : sides ≠ 0 := by omega
  refine ⟨(x, y) :: (List.range' 1 (sides + 1).toNat).map (fun (j : ℕ) =>
      (x + radius * Real.cos ((j : ℝ) * doublePi / ((sides : ℤ) : ℝ)),
       y + radius * Real.sin ((j : ℝ) * doublePi / ((sides : ℤ) : ℝ)))), ?_, ?_, rfl, ?_⟩
  · rw [drawCircleVertices, circleRimLoop_eq x y radius sides hs]
    rfl
  · simp only [List.length_cons, List.length_map, List.length_range']
    have h1 : (sides + 1).toNat = sides + 1 := Int.toNat_of_nonneg (by omega)
    omega
  · intro v hv
    simp only [List.tail_cons, List.mem_map] at hv
    obtain ⟨j, _, rfl⟩ := hv
    have h1 : Real.cos ((j : ℝ) * doublePi / ((sides : ℤ) : ℝ)) ^ 2 +
        Real.sin ((j : ℝ) * doublePi / ((sides : ℤ) : ℝ)) ^ 2 = 1 :=
      Real.cos_sq_add_sin_sq _
    have key : (x + radius * Real.cos ((j : ℝ) * doublePi / ((sides : ℤ) : ℝ)) - x) ^ 2 +
        (y + radius * Real.sin ((j : ℝ) * doublePi / ((sides : ℤ) : ℝ)) - y) ^ 2 =
        radius ^ 2 := by
      linear_combination radius ^ 2 * h1
    rw [key, Real.sqrt_sq hr.le]

/-- Witness for claim C1 at center (0, 0), radius 1, 3 sides. -/
theorem drawCircle_fan_count_and_radius_witness :
    (0 : ℝ) < 1 ∧ (3 : ℤ) ≤ 3 ∧
    ∃ vs : List (ℝ × ℝ),
      drawCircleVertices 0 0 1 3 = some vs ∧
      (vs.length : ℤ) = 3 + 2 ∧
      vs.head? = some (0, 0) ∧
      ∀ v ∈ vs.tail, Real.sqrt ((v.1 - 0) ^ 2 + (v.2 - 0) ^ 2) = 1 :=
  ⟨by norm_num, by norm_num,
    drawCircle_fan_count_and_radius 0 0 1 3 (by norm_num) (by norm_num)⟩

/-- Claim C2: for every side count `n ≥ 1`, rim vertex `i` of `drawCircle`
(`1 ≤ i ≤ n + 1`) equals `(x + r·cos(i·2π/n), y + r·sin(i·2π/n))`, and the
final rim vertex at index `n + 1` coincides with the first rim vertex at
index 1 (the fan closes by duplicating the first rim sample). -/
theorem drawCircle_rim_formula_and_closure (x y radius : ℝ) (sides : ℤ) (hn : 1 ≤ sides) :
    ∃ vs : List (ℝ × ℝ),
      drawCircleVertices x y radius sides = some vs ∧
      (∀ i : ℕ, 1 ≤ i → (i : ℤ) ≤ sides + 1 →
        vs[i]? = some (x + radius * Real.cos ((i : ℝ) * doublePi / ((sides : ℤ) : ℝ)),
                       y + radius * Real.sin ((i : ℝ) * doublePi / ((sides : ℤ) : ℝ)))) ∧
      vs[(sides + 1).toNat]? = vs[1]? := by
  have hs : sides ≠ 0 := by omega
  have hb : ((sides : ℤ) : ℝ) ≠ 0 := Int.cast_ne_zero.mpr hs
  have htn : ((sides + 1).toNat : ℤ) = sides + 1 := Int.toNat_of_nonneg (by omega)
  refine ⟨(x, y) :: (List.range' 1 (sides + 1).toNat).map (fun (j : ℕ) =>
      (x + radius * Real.cos ((j : ℝ) * doublePi / ((sides : ℤ) : ℝ)),
       y + radius * Real.sin ((j : ℝ) * doublePi / ((sides : ℤ) : ℝ)))), ?_, ?_, ?_⟩
  · rw [drawCircleVertices, circleRimLoop_eq x y radius sides hs]
    rfl
  · intro i hi1 hi2
    obtain ⟨m, rfl⟩ : ∃ m, i = m + 1 := ⟨i - 1, by omega⟩
    rw [List.getElem?_cons_succ, List.getElem?_map,
      List.getElem?_range' 1 1 (show m < (sides + 1).toNat by omega)]
    simp only [Option.map_some']
    norm_num [Nat.add_comm]
  · obtain ⟨m, hm⟩ : ∃ m, (sides + 1).toNat = m + 1 := ⟨(sides + 1).toNat - 1, by omega⟩
    rw [hm, List.getElem?_cons_succ, List.getElem?_cons_succ, List.getElem?_map,
      List.getElem?_map, List.getElem?_range' 1 1 (show m < m + 1 by omega),
      List.getElem?_range' 1 1 (show 0 < m + 1 by omega)]
    simp only [Option.map_some']
    have hm1 : ((1 + 1 * m : ℕ) : ℝ) = ((sides : ℤ) : ℝ) + 1 := by
      have : (m : ℤ) = sides := by omega
      push_cast [← this]
      ring
    have hang : ((1 + 1 * m : ℕ) : ℝ) * doublePi / ((sides : ℤ) : ℝ) =
        ((1 + 1 * 0 : ℕ) : ℝ) * doublePi / ((sides : ℤ) : ℝ) + 2 * Real.pi := by
      rw [hm1, doublePi]
      field_simp
      ring
    rw [hang, Real.cos_add_two_pi, Real.sin_add_two_pi]

/-- Witness for claim C2 at center (0, 0), radius 1, 1 side. -/
theorem drawCircle_rim_formula_and_closure_witness :
    (1 : ℤ) ≤ 1 ∧
    ∃ vs : List (ℝ × ℝ),
      drawCircleVertices 0 0 1 1 = some vs ∧
      (∀ i : ℕ, 1 ≤ i → (i : ℤ) ≤ 1 + 1 →
        vs[i]? = some (0 + 1 * Real.cos ((i : ℝ) * doublePi / ((1 : ℤ) : ℝ)),
                       0 + 1 * Real.sin ((i : ℝ) * doublePi / ((1 : ℤ) : ℝ)))) ∧
      vs[((1 : ℤ) + 1).toNat]? = vs[1]? :=
  ⟨by norm_num, drawCircle_rim_formula_and_closure 0 0 1 1 (by norm_num)⟩

/-- Claim C8: under the precondition `sides ≥ 1` every angle computation
`i * 2π / sides` in `drawCircle` is a well-defined division (the vertex
generation succeeds), and `drawCircle` neither rejects nor clamps a side
count of 0: for `sides = 0` the unguarded division by `sides` is reached and
the execution is erroneous. -/
theorem drawCircle_division_guard (x y radius : ℝ) :
    (∀ sides : ℤ, 1 ≤ sides → (drawCircleVertices x y radius sides).isSome = true) ∧
    drawCircleVertices x y radius 0 = none := by
  constructor
  · intro sides hn
    rw [drawCircleVertices, circleRimLoop_eq x y radius sides (by omega)]
    rfl
  · rw [drawCircleVertices]
    norm_num [circleRimLoop, rimVertex, fdiv]

/-- Witness for claim C8 at center (0, 0), radius 1, with 5 sides for the
guarded branch. -/
theorem drawCircle_division_guard_witness :
    (1 : ℤ) ≤ 5 ∧ (drawCircleVertices 0 0 1 5).isSome = true ∧
    drawCircleVertices 0 0 1 0 = none :=
  ⟨by norm_num, (drawCircle_division_guard 0 0 1).1 5 (by norm_num),
    (drawCircle_division_guard 0 0 1).2⟩

/-- The `byte & 0x80` test of `drawText` reads bit 7 of the running byte. -/
theorem and128_ne_zero_iff (byte : ℕ) : byte &&& 128 ≠ 0 ↔ byte.testBit 7 = true := by
  have h := Nat.and_two_pow byte 7
  norm_num at h
  rw [h]
  cases hb : byte.testBit 7 <;> simp

/-- Shifting the running byte left by one moves the bit read at column
`b + 1` of the original byte under the `0x80` test of column `b`. -/
theorem testBit_shifted_byte (byte b : ℕ) (hb : b ≤ 6) :
    ((byte <<< 1) % 256).testBit (7 - b) = byte.testBit (7 - (b + 1)) := by
  have h256 : (256 : ℕ) = 2 ^ 8 := by norm_num
  have h1 : 7 - b < 8 := by omega
  have h2 : 1 ≤ 7 - b := by omega
  rw [h256, Nat.testBit_mod_two_pow, Nat.testBit_shiftLeft]
  simp [h1, h2, Nat.sub_sub]

/-- Membership in the `size × size` point block of one set glyph bit. -/
theorem mem_blockPoints (xpos ypos : ℚ) (size : ℤ) (p : ℚ × ℚ) :
    p ∈ blockPoints xpos ypos size ↔
      ∃ kx ky : ℕ, kx < size.toNat ∧ ky < size.toNat ∧
        p = (xpos + (kx : ℚ), ypos + (ky : ℚ)) := by
  simp only [blockPoints, List.mem_flatMap, List.mem_map, List.mem_range]
  constructor
  · rintro ⟨ky, hky, kx, hkx, rfl⟩
    exact ⟨kx, ky, hkx, hky, rfl⟩
  · rintro ⟨kx, ky, hkx, hky, rfl⟩
    exact ⟨ky, hky, kx, hkx, rfl⟩

/-- Membership characterization of the column loop of `drawText`: with
`n ≤ 8` columns to go and a running byte below 256, the loop emits exactly
the blocks of those remaining columns whose (MSB-first) bit is set. -/
theorem mem_colLoop (ypos : ℚ) (size : ℤ) :
    ∀ (n byte : ℕ) (xpos : ℚ), n ≤ 8 → byte < 256 → ∀ p : ℚ × ℚ,
      (p ∈ colLoop ypos size byte xpos n ↔
        ∃ b : ℕ, b < n ∧ byte.testBit (7 - b) = true ∧
          p ∈ blockPoints (xpos + (b : ℚ) * ((size : ℤ) : ℚ)) ypos size) := by
  intro n
  induction n with
  | zero =>
      intro byte xpos _ _ p
      simp [colLoop]
  | succ n ih =>
      intro byte xpos hn hbyte p
      simp only [colLoop]
      constructor
      · intro hp
        rcases List.mem_append.mp hp with h | h
        · by_cases hbit : byte &&& 128 ≠ 0
          · rw [if_pos hbit] at h
            refine ⟨0, by omega, by simpa using (and128_ne_zero_iff byte).mp hbit, ?_⟩
            have hx : xpos + ((0 : ℕ) : ℚ) * ((size : ℤ) : ℚ) = xpos := by norm_num
            rw [hx]
            exact h
          · rw [if_neg hbit] at h
            simp at h
        · obtain ⟨b, hbn, hbit, hmem⟩ :=
            (ih ((byte <<< 1) % 256) (xpos + ((size : ℤ) : ℚ)) (by omega)
              (Nat.mod_lt _ (by norm_num)) p).mp h
          refine ⟨b + 1, by omega, ?_, ?_⟩
          · rw [← testBit_shifted_byte byte b (by omega)]
            exact hbit
          · have hx : xpos + ((b + 1 : ℕ) : ℚ) * ((size : ℤ) : ℚ)
                = xpos + ((size : ℤ) : ℚ) + (b : ℚ) * ((size : ℤ) : ℚ) := by
              push_cast
              ring
            rw [hx]
            exact hmem
      · rintro ⟨b, hbn, hbit, hmem⟩
        rcases b with _ | b
        · apply List.mem_append_left
          rw [if_pos ((and128_ne_zero_iff byte).mpr (by simpa using hbit))]
          have hx : xpos + ((0 : ℕ) : ℚ) * ((size : ℤ) : ℚ) = xpos := by norm_num
          rw [hx] at hmem
          exact hmem
        · apply List.mem_append_right
          refine (ih ((byte <<< 1) % 256) (xpos + ((size : ℤ) : ℚ)) (by omega)
            (Nat.mod_lt _ (by norm_num)) p).mpr ⟨b, by omega, ?_, ?_⟩
          · rw [testBit_shifted_byte byte b (by omega)]
            exact hbit
          · have hx : xpos + ((b + 1 : ℕ) : ℚ) * ((size : ℤ) : ℚ)
                = xpos + ((size : ℤ) : ℚ) + (b : ℚ) * ((size : ℤ) : ℚ) := by
              push_cast
              ring
            rw [hx] at hmem
            exact hmem

/-- Membership characterization of one character cell of `drawText`: a
point is emitted exactly when some set glyph bit's block contains it. -/
theorem mem_charPoints (x y : ℚ) (size : ℤ) (g : Fin 8 → Fin 256) (p : ℚ × ℚ) :
    p ∈ charPoints x y size g ↔
      ∃ i : Fin 8, ∃ b : ℕ, b < 8 ∧ ((g i : ℕ)).testBit (7 - b) = true ∧
        p ∈ blockPoints (x + (b : ℚ) * ((size : ℤ) : ℚ))
            (y + 8 - ((i : ℕ) : ℚ) * ((size : ℤ) : ℚ)) size := by
  rw [charPoints, List.mem_flatMap]
  constructor
  · rintro ⟨i, -, hp⟩
    obtain ⟨b, hb, hbit, hmem⟩ :=
      (mem_colLoop (y + 8 - ((i : ℕ) : ℚ) * ((size : ℤ) : ℚ)) size 8 ((g i : ℕ)) x
        (by omega) (g i).isLt p).mp hp
    exact ⟨i, b, hb, hbit, hmem⟩
  · rintro ⟨i, b, hb, hbit, hmem⟩
    exact ⟨i, List.mem_finRange i,
      (mem_colLoop (y + 8 - ((i : ℕ) : ℚ) * ((size : ℤ) : ℚ)) size 8 ((g i : ℕ)) x
        (by omega) (g i).isLt p).mpr ⟨b, hb, hbit, hmem⟩⟩

/-- Unfolding of one step of the character loop of `drawText` when the
glyph lookup succeeds: the character is rasterized at the cursor `x` and
the remaining text at the advanced cursor `x + 8 * size`. -/
theorem drawTextLoop_cons (tbl : Fin 95 → Fin 8 → Fin 256) (y : ℚ) (size : ℤ)
    (c : ℤ) (rest : List ℤ) (x : ℚ) (g : Fin 8 → Fin 256)
    (hg : charactersLookup tbl (c - 32) = some g) :
    drawTextLoop tbl y size (c :: rest) x =
      (drawTextLoop tbl y size rest (x + 8 * ((size : ℤ) : ℚ))).map
        (fun more => charPoints x y size g ++ more) := by
  simp only [drawTextLoop, hg]
  cases drawTextLoop tbl y size rest (x + 8 * ((size : ℤ) : ℚ)) <;> rfl

/-- Counterexample to claim C3 as stated: at x = 0, y = 0, size s = 2, for
character 32 whose `tbl0` glyph has exactly the bit at row r = 0, column
b = 0 set, the claimed block y-coordinate is y + 8·s - r·s = 16, but every
point `drawText` actually draws has y-coordinate below 16: the row-0 block
is drawn at y + 8 = 8 (the code starts `ypos` at `y + 8`, not `y + 8 *
size`). -/
theorem drawText_row_y_formula_counterexample :
    drawTextLoop tbl0 0 2 [32] 0 = some [(0, 8), (1, 8), (0, 9), (1, 9)] ∧
    ((tbl0 0 0 : ℕ)).testBit (7 - 0) = true ∧
    ((0 : ℚ) + 8 * ((2 : ℤ) : ℚ) - ((0 : ℕ) : ℚ) * ((2 : ℤ) : ℚ)) = 16 ∧
    (∀ p ∈ [((0 : ℚ), (8 : ℚ)), (1, 8), (0, 9), (1, 9)], p.2 < 16) := by
  refine ⟨?_, by decide, by norm_num, by norm_num⟩
  have hfin : List.finRange 8 = [⟨0, by norm_num⟩, ⟨1, by norm_num⟩, ⟨2, by norm_num⟩,
      ⟨3, by norm_num⟩, ⟨4, by norm_num⟩, ⟨5, by norm_num⟩, ⟨6, by norm_num⟩,
      ⟨7, by norm_num⟩] := rfl
  norm_num [drawTextLoop, charactersLookup, charPoints, colLoop, blockPoints, tbl0,
    glyph1, hfin, List.range_succ, Nat.shiftLeft_eq, Nat.zero_and, Nat.and_self,
    Fin.val_mk, (show ((2 : ℤ)).toNat = 2 from rfl)]

/-- Claim C3 (amended): for every string, every size s ≥ 1, every character
index k, every glyph row r (0 = top) and column b (0 = MSB = leftmost),
`drawText` draws the block for a set bit at row r, column b of character k
with base y-coordinate y + 8 - r·s (row 0 drawn at y + 8, decrementing by s
per row; this coincides with the claimed y + 8·s - r·s only at s = 1) and
base x-coordinate x + 8·s·k + b·s: every point of the s × s block is
emitted. -/
theorem drawText_block_positions (tbl : Fin 95 → Fin 8 → Fin 256)
    (y : ℚ) (size : ℤ) (hsz : 1 ≤ size) :
    ∀ (text : List ℤ) (x : ℚ) (pts : List (ℚ × ℚ)),
      drawTextLoop tbl y size text x = some pts →
      ∀ (k : ℕ) (c : ℤ), text[k]? = some c →
      ∀ g : Fin 8 → Fin 256, charactersLookup tbl (c - 32) = some g →
      ∀ (r : Fin 8) (b kx ky : ℕ), b < 8 → (kx : ℤ) < size → (ky : ℤ) < size →
      ((g r : ℕ)).testBit (7 - b) = true →
      (x + 8 * ((size : ℤ) : ℚ) * (k : ℚ) + (b : ℚ) * ((size : ℤ) : ℚ) + (kx : ℚ),
       y + 8 - ((r : ℕ) : ℚ) * ((size : ℤ) : ℚ) + (ky : ℚ)) ∈ pts := by
  intro text
  induction text with
  | nil =>
      intro x pts hpts k c hc
      simp at hc
  | cons c0 rest ih =>
      intro x pts hpts k c hc g hg r b kx ky hb hkx hky hbit
      cases hlook : charactersLookup tbl (c0 - 32) with
      | none =>
          simp only [drawTextLoop, hlook] at hpts
          exact Option.noConfusion hpts
      | some g0 =>
          rw [drawTextLoop_cons tbl y size c0 rest x g0 hlook] at hpts
          obtain ⟨more, hmore, hsplit⟩ := Option.map_eq_some'.mp hpts
          cases k with
          | zero =>
              have hc0 : c0 = c := by simpa using hc
              subst hc0
              have hgg : g0 = g := by
                rw [hlook] at hg
                exact Option.some.inj hg
              subst hgg
              have hpt : (x + 8 * ((size : ℤ) : ℚ) * ((0 : ℕ) : ℚ)
                    + (b : ℚ) * ((size : ℤ) : ℚ) + (kx : ℚ),
                  y + 8 - ((r : ℕ) : ℚ) * ((size : ℤ) : ℚ) + (ky : ℚ))
                  = ((x + (b : ℚ) * ((size : ℤ) : ℚ)) + (kx : ℚ),
                     (y + 8 - ((r : ℕ) : ℚ) * ((size : ℤ) : ℚ)) + (ky : ℚ)) := by
                norm_num
              rw [hpt, ← hsplit]
              refine List.mem_append_left _ ((mem_charPoints x y size g0 _).mpr
                ⟨r, b, hb, hbit, (mem_blockPoints _ _ _ _).mpr ⟨kx, ky, ?_, ?_, rfl⟩⟩)
              · omega
              · omega
          | succ m =>
              have hcm : rest[m]? = some c := by simpa using hc
              have hmem := ih (x + 8 * ((size : ℤ) : ℚ)) more hmore m c hcm g hg
                r b kx ky hb hkx hky hbit
              have hpt : (x + 8 * ((size : ℤ) : ℚ) * ((m + 1 : ℕ) : ℚ)
                    + (b : ℚ) * ((size : ℤ) : ℚ) + (kx : ℚ),
                  y + 8 - ((r : ℕ) : ℚ) * ((size : ℤ) : ℚ) + (ky : ℚ))
                  = (x + 8 * ((size : ℤ) : ℚ) + 8 * ((size : ℤ) : ℚ) * ((m : ℕ) : ℚ)
                      + (b : ℚ) * ((size : ℤ) : ℚ) + (kx : ℚ),
                     y + 8 - ((r : ℕ) : ℚ) * ((size : ℤ) : ℚ) + (ky : ℚ)) := by
                rw [Prod.mk.injEq]
                constructor
                · push_cast
                  ring
                · rfl
              rw [hpt, ← hsplit]
              exact List.mem_append_right _ hmem

/-- Witness for the amended claim C3: glyph table `tbl0`, character 32 at
size 1 from the origin; the set bit at row 0, column 0 is drawn at (0, 8). -/
theorem drawText_block_positions_witness :
    (1 : ℤ) ≤ 1 ∧
    drawTextLoop tbl0 0 1 [32] 0 = some [((0 : ℚ), (8 : ℚ))] ∧
    ([(32 : ℤ)][0]? = some 32) ∧
    charactersLookup tbl0 (32 - 32) = some glyph1 ∧
    ((glyph1 ⟨0, by norm_num⟩ : ℕ)).testBit (7 - 0) = true ∧
    ((0 : ℚ) + 8 * ((1 : ℤ) : ℚ) * ((0 : ℕ) : ℚ)
        + ((0 : ℕ) : ℚ) * ((1 : ℤ) : ℚ) + ((0 : ℕ) : ℚ),
      (0 : ℚ) + 8 - (((⟨0, by norm_num⟩ : Fin 8) : ℕ) : ℚ) * ((1 : ℤ) : ℚ) + ((0 : ℕ) : ℚ))
      ∈ [((0 : ℚ), (8 : ℚ))] := by
  have hfin : List.finRange 8 = [⟨0, by norm_num⟩, ⟨1, by norm_num⟩, ⟨2, by norm_num⟩,
      ⟨3, by norm_num⟩, ⟨4, by norm_num⟩, ⟨5, by norm_num⟩, ⟨6, by norm_num⟩,
      ⟨7, by norm_num⟩] := rfl
  have heval : drawTextLoop tbl0 0 1 [32] 0 = some [((0 : ℚ), (8 : ℚ))] := by
    norm_num [drawTextLoop, charactersLookup, charPoints, colLoop, blockPoints, tbl0,
      glyph1, hfin, List.range_succ, Nat.shiftLeft_eq, Nat.zero_and, Nat.and_self,
      Fin.val_mk, (show ((1 : ℤ)).toNat = 1 from rfl)]
  have hlook : charactersLookup tbl0 (32 - 32) = some glyph1 := by
    norm_num [charactersLookup, tbl0]
  exact ⟨le_refl 1, heval, by norm_num, hlook, by decide,
    drawText_block_positions tbl0 0 1 (by norm_num) [32] 0 [((0 : ℚ), (8 : ℚ))] heval
      0 32 (by norm_num) glyph1 hlook ⟨0, by norm_num⟩ 0 0 0 (by norm_num) (by norm_num)
      (by norm_num) (by decide)⟩

/-- Claim C4: rendering a single character with `drawText` at size 1
starting at (0, 0) produces a filled point at a column/row position if and
only if the corresponding bit of the character's 8×8 glyph bitmap is 1
(the point for row r, column b sits at (b, 8 - r)), and after each
character the horizontal cursor advances by exactly 8·size pixels before
the next character is drawn. -/
theorem drawText_single_char_bits_and_advance (tbl : Fin 95 → Fin 8 → Fin 256)
    (c : ℤ) (g : Fin 8 → Fin 256) (hg : charactersLookup tbl (c - 32) = some g) :
    (∀ pts : List (ℚ × ℚ), drawTextLoop tbl 0 1 [c] 0 = some pts →
      ∀ (r : Fin 8) (b : ℕ), b < 8 →
        (((b : ℚ), 8 - ((r : ℕ) : ℚ)) ∈ pts ↔ ((g r : ℕ)).testBit (7 - b) = true)) ∧
    (∀ (x y : ℚ) (size : ℤ) (rest : List ℤ),
      drawTextLoop tbl y size (c :: rest) x =
        (drawTextLoop tbl y size rest (x + 8 * ((size : ℤ) : ℚ))).map
          (fun more => charPoints x y size g ++ more)) := by
  constructor
  · intro pts hpts r b hb
    rw [drawTextLoop_cons tbl 0 1 c [] 0 g hg] at hpts
    simp only [drawTextLoop, Option.map_some'] at hpts
    have hpts' : pts = charPoints 0 0 1 g ++ [] := (Option.some.inj hpts).symm
    subst hpts'
    rw [List.append_nil, mem_charPoints]
    constructor
    · rintro ⟨i, b', hb', hbit', hmem⟩
      rw [mem_blockPoints] at hmem
      obtain ⟨kx, ky, hkx, hky, heq⟩ := hmem
      have hkx0 : kx = 0 := by omega
      have hky0 : ky = 0 := by omega
      subst hkx0
      subst hky0
      rw [Prod.mk.injEq] at heq
      obtain ⟨h1, h2⟩ := heq
      have hbb : b = b' := by
        have : (b : ℚ) = (b' : ℚ) := by
          push_cast at h1
          linarith
        exact_mod_cast this
      have hri : r = i := by
        have hq : ((r : ℕ) : ℚ) = ((i : ℕ) : ℚ) := by
          push_cast at h2
          linarith
        exact Fin.ext (by exact_mod_cast hq)
      rw [hbb, hri]
      exact hbit'
    · intro hbit
      refine ⟨r, b, hb, hbit, (mem_blockPoints _ _ _ _).mpr ⟨0, 0, by norm_num, by norm_num, ?_⟩⟩
      rw [Prod.mk.injEq]
      constructor <;> norm_num
  · intro x y size rest
    exact drawTextLoop_cons tbl y size c rest x g hg

/-- Witness for claim C4: glyph table `tbl0`, character 32; its single set
bit (row 0, column 0) yields the point (0, 8), and the bit at row 0,
column 1 is clear, so (1, 8) is not drawn. -/
theorem drawText_single_char_bits_and_advance_witness :
    charactersLookup tbl0 (32 - 32) = some glyph1 ∧
    drawTextLoop tbl0 0 1 [32] 0 = some [((0 : ℚ), (8 : ℚ))] ∧
    ((((0 : ℕ) : ℚ), 8 - (((⟨0, by norm_num⟩ : Fin 8) : ℕ) : ℚ)) ∈ [((0 : ℚ), (8 : ℚ))] ↔
      ((glyph1 ⟨0, by norm_num⟩ : ℕ)).testBit (7 - 0) = true) ∧
    ((((1 : ℕ) : ℚ), 8 - (((⟨0, by norm_num⟩ : Fin 8) : ℕ) : ℚ)) ∈ [((0 : ℚ), (8 : ℚ))] ↔
      ((glyph1 ⟨0, by norm_num⟩ : ℕ)).testBit (7 - 1) = true) := by
  have hfin : List.finRange 8 = [⟨0, by norm_num⟩, ⟨1, by norm_num⟩, ⟨2, by norm_num⟩,
      ⟨3, by norm_num⟩, ⟨4, by norm_num⟩, ⟨5, by norm_num⟩, ⟨6, by norm_num⟩,
      ⟨7, by norm_num⟩] := rfl
  have hlook : charactersLookup tbl0 (32 - 32) = some glyph1 := by
    norm_num [charactersLookup, tbl0]
  have heval : drawTextLoop tbl0 0 1 [32] 0 = some [((0 : ℚ), (8 : ℚ))] := by
    norm_num [drawTextLoop, charactersLookup, charPoints, colLoop, blockPoints, tbl0,
      glyph1, hfin, List.range_succ, Nat.shiftLeft_eq, Nat.zero_and, Nat.and_self,
      Fin.val_mk, (show ((1 : ℤ)).toNat = 1 from rfl)]
  exact ⟨hlook, heval,
    (drawText_single_char_bits_and_advance tbl0 32 glyph1 hlook).1
      [((0 : ℚ), (8 : ℚ))] heval ⟨0, by norm_num⟩ 0 (by norm_num),
    (drawText_single_char_bits_and_advance tbl0 32 glyph1 hlook).1
      [((0 : ℚ), (8 : ℚ))] heval ⟨0, by norm_num⟩ 1 (by norm_num)⟩

/-- Claim C7: for every string whose character codes all satisfy
32 ≤ c ≤ 126, every glyph-table access performed by `drawText` uses the
in-bounds index c - 32 (between 0 and 94) and the whole call succeeds;
`drawText` itself performs no range check, so for a character code outside
that range (e.g. 127) the table access is out of bounds and the call is
erroneous. -/
theorem drawText_glyph_index_bounds (tbl : Fin 95 → Fin 8 → Fin 256) :
    (∀ c : ℤ, 32 ≤ c → c ≤ 126 →
      0 ≤ c - 32 ∧ c - 32 ≤ 94 ∧ (charactersLookup tbl (c - 32)).isSome = true) ∧
    (∀ (x y : ℚ) (size : ℤ) (text : List ℤ),
      (∀ c ∈ text, 32 ≤ c ∧ c ≤ 126) → (drawTextLoop tbl y size text x).isSome = true) ∧
    charactersLookup tbl (127 - 32) = none ∧
    (∀ (x y : ℚ) (size : ℤ), drawTextLoop tbl y size [127] x = none) := by
  have hsome : ∀ c : ℤ, 32 ≤ c → c ≤ 126 → (charactersLookup tbl (c - 32)).isSome = true := by
    intro c h1 h2
    rw [charactersLookup, dif_pos ⟨by omega, by omega⟩]
    rfl
  refine ⟨fun c h1 h2 => ⟨by omega, by omega, hsome c h1 h2⟩, ?_, ?_, ?_⟩
  · intro x y size text
    induction text generalizing x with
    | nil => intro _; rfl
    | cons c rest ih =>
        intro hall
        have hc := hall c (List.mem_cons_self c rest)
        obtain ⟨g, hg⟩ := Option.isSome_iff_exists.mp (hsome c hc.1 hc.2)
        have hrest := ih (x + 8 * ((size : ℤ) : ℚ))
          (fun c' hc' => hall c' (List.mem_cons_of_mem c hc'))
        obtain ⟨more, hmore⟩ := Option.isSome_iff_exists.mp hrest
        simp only [drawTextLoop, hg, hmore]
        rfl
  · rw [charactersLookup, dif_neg]
    intro h
    omega
  · intro x y size
    have hnone : charactersLookup tbl ((127 : ℤ) - 32) = none := by
      rw [charactersLookup, dif_neg]
      intro h
      omega
    simp only [drawTextLoop, hnone]

/-- Witness for claim C7: glyph table `tbl0`, the in-range code 65 and the
in-range text [65], plus the out-of-range code 127. -/
theorem drawText_glyph_index_bounds_witness :
    ((32 : ℤ) ≤ 65 ∧ (65 : ℤ) ≤ 126) ∧
    (0 ≤ (65 : ℤ) - 32 ∧ (65 : ℤ) - 32 ≤ 94 ∧
      (charactersLookup tbl0 (65 - 32)).isSome = true) ∧
    (∀ c ∈ [(65 : ℤ)], 32 ≤ c ∧ c ≤ 126) ∧
    (drawTextLoop tbl0 0 1 [(65 : ℤ)] 0).isSome = true ∧
    charactersLookup tbl0 (127 - 32) = none ∧
    drawTextLoop tbl0 0 1 [(127 : ℤ)] 0 = none :=
  ⟨⟨by norm_num, by norm_num⟩,
    (drawText_glyph_index_bounds tbl0).1 65 (by norm_num) (by norm_num),
    by norm_num,
    (drawText_glyph_index_bounds tbl0).2.1 0 0 1 [(65 : ℤ)] (by norm_num),
    (drawText_glyph_index_bounds tbl0).2.2.1,
    (drawText_glyph_index_bounds tbl0).2.2.2 0 0 1⟩

/-- Claim C9: every draw routine is deterministic — calling `drawCircle` or
`drawText` twice with identical arguments produces the identical
vertex/point sequence on both calls; the only backend state either call
mutates is the color register, and the second call's output does not depend
on it (it is the same for every incoming register value). -/
theorem draw_routines_deterministic (x y radius : ℝ) (color : ℕ) (sides : ℤ)
    (tbl : Fin 95 → Fin 8 → Fin 256) (tx ty : ℚ) (text : List ℤ) (size : ℤ)
    (tcolor : ℕ) (s s' : ℚ × ℚ × ℚ) :
    (drawCircleRun x y radius color sides ((drawCircleRun x y radius color sides s).2)).1 =
      (drawCircleRun x y radius color sides s).1 ∧
    (drawTextRun tbl tx ty text size tcolor ((drawTextRun tbl tx ty text size tcolor s').2)).1 =
      (drawTextRun tbl tx ty text size tcolor s').1 := by
  constructor
  · rfl
  · unfold drawTextRun
    cases h : drawTextTrace tbl tx ty text size tcolor <;> simp [h]

/-- The colors recorded for the points of a `drawText` trace: every point
goes through `drawPoint`, which sets the default color `White` first. -/
theorem pointColors_flatMap_drawPointCalls (pts : List (ℚ × ℚ)) :
    ∀ s : ℚ × ℚ × ℚ, pointColors s (pts.flatMap drawPointCalls) =
      pts.map (fun q => (q, setColor White)) := by
  induction pts with
  | nil => intro s; rfl
  | cons q rest ih =>
      intro s
      have h1 : (q :: rest).flatMap drawPointCalls
          = TextEvent.setCol (setColor White) :: TextEvent.point q 1
            :: rest.flatMap drawPointCalls := by
        simp [drawPointCalls]
      rw [h1]
      simp only [pointColors]
      rw [ih]
      rfl

/-- Claim C10: although `drawText` sets the backend color to its `color`
argument once at entry, every point it emits goes through
`drawPoint(xs, ys, 1)`, which re-invokes `setColor` with `drawPoint`'s
default color `White` before the point is drawn; therefore the backend
color in effect when each text point is drawn is `setColor White`, not
`drawText`'s color argument, whenever the two decode differently. -/
theorem drawText_points_use_default_color (tbl : Fin 95 → Fin 8 → Fin 256)
    (x y : ℚ) (text : List ℤ) (size : ℤ) (color : ℕ) (s : ℚ × ℚ × ℚ)
    (p : ℚ × ℚ) (col : ℚ × ℚ × ℚ)
    (hmem : (p, col) ∈ pointColors s ((drawTextTrace tbl x y text size color).getD [])) :
    col = setColor White ∧
    (setColor color ≠ setColor White → col ≠ setColor color) := by
  cases htr : drawTextLoop tbl y size text x with
  | none =>
      rw [drawTextTrace, htr] at hmem
      simp [pointColors] at hmem
  | some pts =>
      rw [drawTextTrace, htr, Option.map_some', Option.getD_some] at hmem
      simp only [pointColors, pointColors_flatMap_drawPointCalls, List.mem_map] at hmem
      obtain ⟨q, -, heq⟩ := hmem
      have hcol : col = setColor White := congrArg Prod.snd heq |>.symm
      refine ⟨hcol, fun hne hcontra => hne ?_⟩
      rw [hcol] at hcontra
      exact hcontra.symm

/-- Witness for claim C10: glyph table `tbl0`, character 32 at size 1 from
the origin with requested color `0xFF0000` (red): the recorded color for
the drawn point (0, 8) is `setColor White = (1, 1, 1)`, which differs from
the requested red. -/
theorem drawText_points_use_default_color_witness :
    ((((0 : ℚ), (8 : ℚ)), setColor White) ∈
      pointColors (0, 0, 0) ((drawTextTrace tbl0 0 0 [32] 1 0xFF0000).getD [])) ∧
    setColor 0xFF0000 ≠ setColor White ∧
    setColor White = (1, 1, 1) ∧
    setColor White ≠ setColor 0xFF0000 := by
  have hfin : List.finRange 8 = [⟨0, by norm_num⟩, ⟨1, by norm_num⟩, ⟨2, by norm_num⟩,
      ⟨3, by norm_num⟩, ⟨4, by norm_num⟩, ⟨5, by norm_num⟩, ⟨6, by norm_num⟩,
      ⟨7, by norm_num⟩] := rfl
  have heval : drawTextLoop tbl0 0 1 [32] 0 = some [((0 : ℚ), (8 : ℚ))] := by
    norm_num [drawTextLoop, charactersLookup, charPoints, colLoop, blockPoints, tbl0,
      glyph1, hfin, List.range_succ, Nat.shiftLeft_eq, Nat.zero_and, Nat.and_self,
      Fin.val_mk, (show ((1 : ℤ)).toNat = 1 from rfl)]
  have hmem : (((0 : ℚ), (8 : ℚ)), setColor White) ∈
      pointColors (0, 0, 0) ((drawTextTrace tbl0 0 0 [32] 1 0xFF0000).getD []) := by
    rw [drawTextTrace, heval, Option.map_some', Option.getD_some]
    simp only [pointColors, pointColors_flatMap_drawPointCalls, List.map_cons, List.map_nil]
    exact List.mem_singleton.mpr rfl
  have hwhite : setColor White = (1, 1, 1) := by
    norm_num [setColor, White, Nat.shiftRight_eq_div_pow, and255_eq_mod]
  have hne : setColor 0xFF0000 ≠ setColor White := by
    rw [hwhite]
    norm_num [setColor, Nat.shiftRight_eq_div_pow, and255_eq_mod]
  exact ⟨hmem, hne, hwhite,
    (drawText_points_use_default_color tbl0 0 0 [32] 1 0xFF0000 (0, 0, 0)
      ((0 : ℚ), (8 : ℚ)) (setColor White) hmem).2 hne⟩

end Fgcugl
